import Mathlib

/-! Verification of the metrics history engine of `app.py` (status_page).

Shallow embedding conventions:
* Python `datetime` instants are modelled as `Int` (seconds); `timedelta`
  constants are the corresponding numbers of seconds.
* Python floats (metric values, uptime seconds) are modelled as exact
  rationals `ℚ`.
* A sample dict with independently nullable fields is a structure of
  `Option` fields; a falsy point (`None`) is `Option.none`.
* Disk I/O is modelled by explicit effect values (`DiskOp`) or by passing
  file contents (lists of lines / the session-state record) explicitly.
-/

namespace StatusPage

/-- Constant `PI_HISTORY_WINDOW = timedelta(hours=4)`, in seconds. -/
def PI_HISTORY_WINDOW : Int := 14400

/-- Constant `PI_FULL_HISTORY_RETENTION = timedelta(days=30)`, in seconds. -/
def PI_FULL_HISTORY_RETENTION : Int := 2592000

/-- Constant `PI_FULL_HISTORY_MAX_API_POINTS = 2000`. -/
def PI_FULL_HISTORY_MAX_API_POINTS : Int := 2000

/-- One history entry, as built by `_record_pi_history` /
`_load_pi_full_history_from_disk`: `{"ts": now, "cpu": ..., "ram": ...,
"temperature": ..., "fan": ..., "online": ...}`. -/
structure Entry where
  ts : Int
  cpu : Option ℚ
  ram : Option ℚ
  temperature : Option ℚ
  fan : Option ℚ
  online : Option Bool
deriving DecidableEq

/-- The raw sample point produced by `_fetch_pi_stats` (no timestamp yet). -/
structure Point where
  cpu : Option ℚ
  ram : Option ℚ
  temperature : Option ℚ
  fan : Option ℚ
  online : Option Bool
deriving DecidableEq

/-- In-memory store state: `PI_HISTORY` (recent window deque) and
`PI_FULL_HISTORY` (retained full history list). -/
structure PiState where
  recent : List Entry
  full : List Entry
deriving DecidableEq

/-- One disk effect on `pi_history_full.jsonl`:
`_persist_pi_full_history_entry` appends one line,
`_rewrite_pi_full_history_file` rewrites the whole file. -/
inductive DiskOp where
  | append (e : Entry)
  | rewrite (es : List Entry)
deriving DecidableEq

/-- The recent-window eviction loop of `_record_pi_history`:
`while PI_HISTORY and PI_HISTORY[0]["ts"] < cutoff: PI_HISTORY.popleft()`. -/
def dropOld (cutoff : Int) : List Entry → List Entry
  | [] => []
  | e :: rest => if e.ts < cutoff then dropOld cutoff rest else e :: rest

/-- The full-history eviction loop of `_record_pi_history`, which also counts
the removed entries:
`while PI_FULL_HISTORY and PI_FULL_HISTORY[0]["ts"] < retention_cutoff:
PI_FULL_HISTORY.pop(0); removed_full += 1`. -/
def dropOldCount (cutoff : Int) : List Entry → List Entry × Nat
  | [] => ([], 0)
  | e :: rest =>
      if e.ts < cutoff then
        let r := dropOldCount cutoff rest
        (r.1, r.2 + 1)
      else (e :: rest, 0)

/-- Function `_record_pi_history(point)` at instant `now`: falsy `point` returns at
once; otherwise the entry `{"ts": now, **point}` is appended to both
containers, each container is evicted at its cutoff, the entry is persisted
(append), and the file is rewritten to the surviving full history iff the
full-history eviction removed at least one entry.  Returns the new state and
the list of disk operations performed, in order. -/
def _record_pi_history (st : PiState) (point : Option Point) (now : Int) :
    PiState × List DiskOp :=
  match point with
  | none => (st, [])
  | some p =>
      let entry : Entry := ⟨now, p.cpu, p.ram, p.temperature, p.fan, p.online⟩
      let recent := dropOld (now - PI_HISTORY_WINDOW) (st.recent ++ [entry])
      let fr :=
        if PI_FULL_HISTORY_RETENTION ≠ 0 then
          dropOldCount (now - PI_FULL_HISTORY_RETENTION) (st.full ++ [entry])
        else (st.full ++ [entry], 0)
      let ops :=
        [DiskOp.append entry] ++ (if fr.2 ≠ 0 then [DiskOp.rewrite fr.1] else [])
      (⟨recent, fr.1⟩, ops)

/-- One step of a run of `_record_pi_history` with a real (non-falsy) point. -/
def recordStep (s : PiState) (pr : Point × Int) : PiState :=
  (_record_pi_history s (some pr.1) pr.2).1

/-- A sequence of `_record_pi_history` calls with points and their `now`
instants. -/
def runRecords (st : PiState) (ops : List (Point × Int)) : PiState :=
  ops.foldl recordStep st

/-! Section: Downsampler (`_downsample_entries`) -/

/-- Helper realising the Python slice `entries[::step]`: keep an element when
the skip counter is `0`, then reset the counter to `step - 1`. -/
def stridedAux (step : Nat) : List α → Nat → List α
  | [], _ => []
  | x :: xs, 0 => x :: stridedAux step xs (step - 1)
  | _ :: xs, k + 1 => stridedAux step xs k

/-- The Python slice `entries[::step]` (every `step`-th element from index
`0`). -/
def strided (step : Nat) (l : List α) : List α := stridedAux step l 0

/-- Step size `step = max(1, math.ceil(len(entries) / max_points))` (exact integer
ceiling). -/
def stepOf (n : Nat) (max_points : Int) : Nat :=
  max 1 ((n + max_points.toNat - 1) / max_points.toNat)

/-- Function `_downsample_entries(entries, max_points)`.  The Python guard
`sampled[-1] is not entries[-1]` compares object identity; the freshly built
entry dicts are pairwise distinct objects, so the last sampled element is the
last input element exactly when the last strided index is `len(entries) - 1`,
i.e. when `(len(entries) - 1) % step == 0`. -/
def _downsample_entries (entries : List α) (max_points : Int) : List α :=
  if max_points ≤ 0 ∨ (entries.length : Int) ≤ max_points then entries
  else
    let step := stepOf entries.length max_points
    let sampled := strided step entries
    if sampled.isEmpty ∨ (entries.length - 1) % step = 0 then sampled
    else sampled ++ entries.getLast?.toList

/-! Section: Session tracker (`_update_session_tracking`) -/

/-- State record `SessionState`, persisted as `session_state.json`. -/
structure SessionState where
  total_completed_seconds : ℚ
  last_uptime : ℚ
deriving DecidableEq

/-- The dict returned by `_update_session_tracking` on success. -/
structure SessionResult where
  current_seconds : ℚ
  total_seconds : ℚ
deriving DecidableEq

/-- Function `_update_session_tracking(uptime_value)`, with the persisted state passed
and returned explicitly (the disk file holds exactly this record).  `none`
models an unparsable/missing uptime (`_safe_float` returned `None`): the
function returns `None` without touching the state. -/
def _update_session_tracking (st : SessionState) (uptime_value : Option ℚ) :
    SessionState × Option SessionResult :=
  match uptime_value with
  | none => (st, none)
  | some uptime_seconds =>
      let total_completed :=
        if uptime_seconds < st.last_uptime then
          st.total_completed_seconds + st.last_uptime
        else st.total_completed_seconds
      (⟨total_completed, uptime_seconds⟩,
       some ⟨uptime_seconds, total_completed + uptime_seconds⟩)

/-- One update with a parsable uptime value, keeping only the state. -/
def sessionStep (st : SessionState) (u : ℚ) : SessionState :=
  (_update_session_tracking st (some u)).1

/-! Section: Connectivity probe (`_check_internet_connectivity`, `_fetch_pi_stats`) -/

/-- Outcome of one `socket.create_connection` attempt against one target:
it connects, it raises `OSError` (connection failure), or it raises some
other exception. -/
inductive ProbeOutcome where
  | success
  | connError
  | exn
deriving DecidableEq

/-- Function `_check_internet_connectivity()`: try the targets in order; return `True`
on the first that connects, swallow `OSError` and continue, let any other
exception propagate (`Except.error`); return `False` after all targets
failed. -/
def _check_internet_connectivity : List ProbeOutcome → Except Unit Bool
  | [] => .ok false
  | o :: rest =>
      match o with
      | .success => .ok true
      | .connError => _check_internet_connectivity rest
      | .exn => .error ()

/-- The `online_status` computation of `_fetch_pi_stats(check_connectivity)`:
starts at `None`; on a probing tick calls the probe inside
`try/except Exception`, leaving `None` when an exception escapes. -/
def fetchOnlineStatus (check_connectivity : Bool)
    (outcomes : List ProbeOutcome) : Option Bool :=
  if check_connectivity then
    match _check_internet_connectivity outcomes with
    | .ok b => some b
    | .error _ => none
  else none

/-! Section: Query façade (`_build_pi_history_payload`) -/

/-- An entry as seen by the payload builder: the `"ts"` key may in principle
be absent/falsy (`entry.get("ts")`), in which case the row is skipped. -/
structure PEntry where
  ts : Option Int
  cpu : Option ℚ
  ram : Option ℚ
  temperature : Option ℚ
  fan : Option ℚ
  online : Option Bool
deriving DecidableEq

/-- The columnar payload: labels plus one sequence per metric. -/
structure Payload where
  labels : List Int
  temperature : List (Option ℚ)
  cpu : List (Option ℚ)
  ram : List (Option ℚ)
  fan : List (Option ℚ)
  online : List (Option Bool)
deriving DecidableEq

/-- Function `_build_pi_history_payload(entries)`: one pass over the entries; rows
without a usable `ts` are skipped whole, every kept row appends to all six
columns (absent metric values are appended as `None`). -/
def _build_pi_history_payload : List PEntry → Payload
  | [] => ⟨[], [], [], [], [], []⟩
  | e :: rest =>
      match e.ts with
      | none => _build_pi_history_payload rest
      | some t =>
          let p := _build_pi_history_payload rest
          ⟨t :: p.labels, e.temperature :: p.temperature, e.cpu :: p.cpu,
           e.ram :: p.ram, e.fan :: p.fan, e.online :: p.online⟩

/-! Section: Startup load (`_load_pi_full_history_from_disk`) -/

/-- The parse outcome of one line of `pi_history_full.jsonl`, abstracting the
Python parsing pipeline: blank line; `json.loads` failure or non-dict
payload; missing/falsy `"ts"`; `datetime.fromisoformat` failure; or a fully
parsed record (the `valid` constructor carries the parsed fields, including
the `online` bool coercion). -/
inductive RawLine where
  | blank
  | malformed
  | missingTs
  | badTs
  | valid (e : Entry)
deriving DecidableEq

/-- Result of the startup load: the rebuilt containers, the count of points
discarded by the retention cutoff (`pruned_on_load`), and whether the
survivor set was written back to disk. -/
structure LoadResult where
  full : List Entry
  recent : List Entry
  pruned : Nat
  rewritten : Bool
deriving DecidableEq

/-- The line-reading loop of `_load_pi_full_history_from_disk`: skipped lines
contribute nothing, a valid line older than the retention cutoff bumps
`pruned_on_load`, any other valid line is appended to `entries`. -/
def parseLoop (retention_cutoff : Option Int) :
    List RawLine → List Entry × Nat
  | [] => ([], 0)
  | l :: rest =>
      let r := parseLoop retention_cutoff rest
      match l with
      | .valid e =>
          match retention_cutoff with
          | some c => if e.ts < c then (r.1, r.2 + 1) else (e :: r.1, r.2)
          | none => (e :: r.1, r.2)
      | _ => r

/-- Function `_load_pi_full_history_from_disk()` on a readable file whose lines parse
as `lines`, at instant `now`: rebuild `PI_FULL_HISTORY` from the surviving
entries and `PI_HISTORY` from the same set filtered by the recent-window
cutoff (`entry["ts"]` is a parsed datetime, hence truthy); rewrite the file
iff `pruned_on_load` is nonzero. -/
def _load_pi_full_history_from_disk (lines : List RawLine) (now : Int) :
    LoadResult :=
  let retention_cutoff : Option Int :=
    if PI_FULL_HISTORY_RETENTION ≠ 0 then some (now - PI_FULL_HISTORY_RETENTION)
    else none
  let pr := parseLoop retention_cutoff lines
  let cutoff := now - PI_HISTORY_WINDOW
  ⟨pr.1, pr.1.filter (fun e => decide (cutoff ≤ e.ts)), pr.2, pr.2 ≠ 0⟩

/-- The entry `{"ts": now, **point}` built by `_record_pi_history`. -/
def entryOf (p : Point) (now : Int) : Entry :=
  ⟨now, p.cpu, p.ram, p.temperature, p.fan, p.online⟩

/-- Invariant carried along a run of records: both containers are sorted by
timestamp and hold only entries between the relevant cutoff and the last
record instant `m`. -/
def Good (st : PiState) (m : Int) : Prop :=
  st.recent.Pairwise (fun a b => a.ts ≤ b.ts) ∧
  (∀ e ∈ st.recent, e.ts ≤ m ∧ m - PI_HISTORY_WINDOW ≤ e.ts) ∧
  st.full.Pairwise (fun a b => a.ts ≤ b.ts) ∧
  (∀ e ∈ st.full, e.ts ≤ m ∧ m - PI_FULL_HISTORY_RETENTION ≤ e.ts)

/-! Section: Spec-side characterisations used in theorem statements -/

/-- Spec-side description of the lines surviving the startup load: the
parsed records at or after the retention cutoff, in file order. -/
def survivors (lines : List RawLine) (now : Int) : List Entry :=
  lines.filterMap fun l =>
    match l with
    | .valid e =>
        if now - PI_FULL_HISTORY_RETENTION ≤ e.ts then some e else none
    | _ => none

/-- Spec-side count of lines discarded by the retention cutoff. -/
def prunedCountSpec (lines : List RawLine) (now : Int) : Nat :=
  (lines.filter fun l =>
    match l with
    | .valid e => decide (e.ts < now - PI_FULL_HISTORY_RETENTION)
    | _ => false).length

/-! Section: Lemmas about the strided slice -/

lemma stridedAux_eq_drop (step : Nat) :
    ∀ (k : Nat) (l : List α), stridedAux step l k = stridedAux step (l.drop k) 0 := by
  intro k
  induction k with
  | zero => intro l; rfl
  | succ k ih =>
      intro l
      cases l with
      | nil => rfl
      | cons x xs =>
          show stridedAux step xs k = stridedAux step ((x :: xs).drop (k + 1)) 0
          rw [List.drop_succ_cons]
          exact ih xs

lemma strided_nil (step : Nat) : strided step ([] : List α) = [] := rfl

lemma strided_cons (step : Nat) (x : α) (xs : List α) :
    strided step (x :: xs) = x :: strided step (xs.drop (step - 1)) := by
  show x :: stridedAux step xs (step - 1) = _
  rw [stridedAux_eq_drop]
  rfl

lemma strided_length (step : Nat) (h : 1 ≤ step) (l : List α) :
    (strided step l).length = (l.length + step - 1) / step := by
  suffices H : ∀ n (l : List α), l.length ≤ n →
      (strided step l).length = (l.length + step - 1) / step from H l.length l le_rfl
  intro n
  induction n with
  | zero =>
      intro l hl
      have hnil : l = [] := List.eq_nil_of_length_eq_zero (by omega)
      subst hnil
      rw [strided_nil]
      simp [Nat.div_eq_of_lt (show step - 1 < step by omega)]
  | succ n ih =>
      intro l hl
      cases l with
      | nil =>
          rw [strided_nil]
          simp [Nat.div_eq_of_lt (show step - 1 < step by omega)]
      | cons x xs =>
          rw [strided_cons, List.length_cons, List.length_cons]
          have hd : (xs.drop (step - 1)).length ≤ n := by
            rw [List.length_drop]
            simp only [List.length_cons] at hl
            omega
          rw [ih _ hd, List.length_drop]
          rcases le_or_lt (step - 1) xs.length with hge | hlt
          · have e1 : xs.length - (step - 1) + step - 1 = xs.length := by omega
            have e2 : xs.length + 1 + step - 1 = xs.length + step := by omega
            rw [e1, e2, Nat.add_div_right _ (show 0 < step by omega)]
          · have e1 : xs.length - (step - 1) = 0 := by omega
            have e2 : xs.length + 1 + step - 1 = xs.length + step := by omega
            rw [e1, e2, Nat.add_div_right _ (show 0 < step by omega),
              Nat.div_eq_of_lt (show 0 + step - 1 < step by omega),
              Nat.div_eq_of_lt (show xs.length < step by omega)]

lemma strided_getElem? (step : Nat) (h : 1 ≤ step) (l : List α) (i : Nat) :
    (strided step l)[i]? = l[i * step]? := by
  suffices H : ∀ n (l : List α), l.length ≤ n → ∀ i : Nat,
      (strided step l)[i]? = l[i * step]? from H l.length l le_rfl i
  intro n
  induction n with
  | zero =>
      intro l hl i
      have hnil : l = [] := List.eq_nil_of_length_eq_zero (by omega)
      subst hnil
      rw [strided_nil]
      simp
  | succ n ih =>
      intro l hl i
      cases l with
      | nil =>
          rw [strided_nil]
          simp
      | cons x xs =>
          rw [strided_cons]
          cases i with
          | zero => simp
          | succ i =>
              have hd : (xs.drop (step - 1)).length ≤ n := by
                rw [List.length_drop]
                simp only [List.length_cons] at hl
                omega
              rw [List.getElem?_cons_succ, ih _ hd i, List.getElem?_drop]
              have e : (i + 1) * step = (step - 1 + i * step) + 1 := by
                rw [Nat.succ_mul]
                generalize i * step = t
                omega
              rw [e, List.getElem?_cons_succ]

lemma le_mul_ceil (N mp : Nat) (h1 : 1 ≤ mp) (hN : 1 ≤ N) :
    N ≤ mp * ((N + mp - 1) / mp) := by
  have hd := Nat.div_add_mod (N + mp - 1) mp
  have hr := Nat.mod_lt (N + mp - 1) (show 0 < mp by omega)
  generalize (N + mp - 1) / mp = q at *
  generalize (N + mp - 1) % mp = r at *
  generalize mp * q = t at *
  omega

lemma ceil_le_of_le_mul (N s mp : Nat) (hs : 1 ≤ s) (h : N ≤ mp * s) :
    (N + s - 1) / s ≤ mp := by
  rw [Nat.div_le_iff_le_mul_add_pred (show 0 < s by omega)]
  rw [Nat.mul_comm] at h
  generalize s * mp = t at *
  omega

/-- Claim C1. `_downsample_entries` returns the list unchanged when
`max_points <= 0` or the list already fits; otherwise the output has at most
`max_points + 1` elements, position `i` of the output is input position
`i * step` (with `step = ceil(N / max_points)`) for every sampled position,
and the last element of the output is the last element of the input. -/
theorem downsample_correct (entries : List α) (mp : Int) :
    if mp ≤ 0 ∨ (entries.length : Int) ≤ mp then
      _downsample_entries entries mp = entries
    else
      (_downsample_entries entries mp).length ≤ mp.toNat + 1 ∧
      (∀ i : Nat,
        i < (entries.length + stepOf entries.length mp - 1) / stepOf entries.length mp →
        (_downsample_entries entries mp)[i]? = entries[i * stepOf entries.length mp]?) ∧
      (_downsample_entries entries mp).getLast? = entries.getLast? := by
  by_cases hcond : mp ≤ 0 ∨ (entries.length : Int) ≤ mp
  · rw [if_pos hcond]
    unfold _downsample_entries
    rw [if_pos hcond]
  · rw [if_neg hcond]
    have hc2 := hcond
    push_neg at hc2
    obtain ⟨h1, h2⟩ := hc2
    have hmp1 : 1 ≤ mp.toNat := by omega
    have hmpN : mp.toNat < entries.length := by omega
    have hN1 : 1 ≤ entries.length := by omega
    have hs1 : 1 ≤ stepOf entries.length mp := le_max_left _ _
    have hs_eq : stepOf entries.length mp =
        (entries.length + mp.toNat - 1) / mp.toNat := by
      unfold stepOf
      rw [max_eq_right]
      rw [Nat.one_le_div_iff (show 0 < mp.toNat by omega)]
      omega
    have hNle : entries.length ≤ mp.toNat * stepOf entries.length mp := by
      rw [hs_eq]
      exact le_mul_ceil entries.length mp.toNat hmp1 hN1
    have hcle : (entries.length + stepOf entries.length mp - 1) /
        stepOf entries.length mp ≤ mp.toNat :=
      ceil_le_of_le_mul entries.length (stepOf entries.length mp) mp.toNat hs1 hNle
    have hlen : (strided (stepOf entries.length mp) entries).length =
        (entries.length + stepOf entries.length mp - 1) / stepOf entries.length mp :=
      strided_length _ hs1 entries
    have hc1 : 1 ≤ (entries.length + stepOf entries.length mp - 1) /
        stepOf entries.length mp := by
      rw [Nat.one_le_div_iff (show 0 < stepOf entries.length mp by omega)]
      omega
    have hds : _downsample_entries entries mp =
        (if (strided (stepOf entries.length mp) entries).isEmpty ∨
            (entries.length - 1) % stepOf entries.length mp = 0 then
          strided (stepOf entries.length mp) entries
        else
          strided (stepOf entries.length mp) entries ++ entries.getLast?.toList) := by
      unfold _downsample_entries
      rw [if_neg hcond]
    by_cases hin : (strided (stepOf entries.length mp) entries).isEmpty ∨
        (entries.length - 1) % stepOf entries.length mp = 0
    · rw [hds, if_pos hin]
      rcases hin with hemp | hmod
      · exfalso
        rw [List.isEmpty_iff] at hemp
        rw [hemp] at hlen
        simp at hlen
        omega
      · refine ⟨by omega, fun i _ => strided_getElem? _ hs1 entries i, ?_⟩
        obtain ⟨t, ht⟩ := Nat.dvd_of_mod_eq_zero hmod
        have hceq : (entries.length + stepOf entries.length mp - 1) /
            stepOf entries.length mp = t + 1 := by
          have e : entries.length + stepOf entries.length mp - 1 =
              stepOf entries.length mp * (t + 1) := by
            rw [Nat.mul_succ]
            generalize hgen : stepOf entries.length mp * t = u at ht ⊢
            omega
          rw [e, Nat.mul_div_cancel_left _ (show 0 < stepOf entries.length mp by omega)]
        rw [List.getLast?_eq_getElem?, List.getLast?_eq_getElem?, hlen, hceq,
          strided_getElem? _ hs1]
        have e2 : (t + 1 - 1) * stepOf entries.length mp = entries.length - 1 := by
          rw [Nat.add_sub_cancel, Nat.mul_comm]
          omega
        rw [e2]
    · rw [hds, if_neg hin]
      push_neg at hin
      have hne : entries ≠ [] := by
        intro h
        rw [h] at hN1
        simp at hN1
      obtain ⟨a, ha⟩ : ∃ a, entries.getLast? = some a := by
        rw [← Option.isSome_iff_exists, List.getLast?_isSome]
        exact hne
      rw [ha]
      simp only [Option.toList]
      refine ⟨?_, ?_, ?_⟩
      · rw [List.length_append, hlen]
        simp only [List.length_cons, List.length_nil]
        omega
      · intro i hi
        rw [List.getElem?_append_left (by rw [hlen]; exact hi)]
        exact strided_getElem? _ hs1 entries i
      · rw [List.getLast?_concat]


/-- Witness for `downsample_correct`: ten entries capped at three points give
at most four output points whose last element is the input's last element. -/
theorem downsample_correct_witness :
    (_downsample_entries [0, 1, 2, 3, 4, 5, 6, 7, 8, 9] (3 : Int)).length ≤
      (3 : Int).toNat + 1 ∧
    (_downsample_entries [0, 1, 2, 3, 4, 5, 6, 7, 8, 9] (3 : Int)).getLast? =
      some 9 := by
  have h := downsample_correct ([0, 1, 2, 3, 4, 5, 6, 7, 8, 9] : List Nat) 3
  rw [if_neg (by decide)] at h
  refine ⟨h.1, ?_⟩
  rw [h.2.2]
  rfl

/-! Section: Session tracker: monotonicity of the completed total -/

lemma sessionStep_last (st : SessionState) (u : ℚ) :
    (sessionStep st u).last_uptime = u := rfl

lemma sessionStep_total (st : SessionState) (u : ℚ) :
    (sessionStep st u).total_completed_seconds =
      if u < st.last_uptime then st.total_completed_seconds + st.last_uptime
      else st.total_completed_seconds := rfl

lemma foldl_sessionStep_last_nonneg :
    ∀ (l : List ℚ) (st : SessionState), 0 ≤ st.last_uptime →
      (∀ x ∈ l, 0 ≤ x) → 0 ≤ (l.foldl sessionStep st).last_uptime := by
  intro l
  induction l with
  | nil => intro st h _; exact h
  | cons x xs ih =>
      intro st h hx
      rw [List.foldl_cons]
      refine ih (sessionStep st x) ?_ (fun y hy => hx y (List.mem_cons_of_mem x hy))
      rw [sessionStep_last]
      exact hx x (List.mem_cons_self x xs)

/-- Claim C3, counterexample. The claim quantifies over all parsable uptime
values; with the parsable sequence `-5, -10` from the default state the
completed total strictly decreases (each observation is below the stored
`last_uptime`, so the code adds that negative stored value). -/
theorem session_total_decreases_on_negative_uptime :
    (sessionStep (sessionStep ⟨0, 0⟩ (-5)) (-10)).total_completed_seconds <
      (sessionStep ⟨0, 0⟩ (-5)).total_completed_seconds := by
  norm_num [sessionStep, _update_session_tracking]

/-- Claim C3, amended. For every sequence of session-tracker updates with
parsable *nonnegative* uptime values, starting from the default state
`{0, 0}`: at each update the stored total never decreases, it strictly
increases exactly when the observed uptime is below the stored
`last_uptime`, and in that case it increases by exactly that stored
`last_uptime` value. -/
theorem session_total_monotone (us pre suf : List ℚ) (u : ℚ)
    (hsplit : us = pre ++ u :: suf) (hnn : ∀ x ∈ us, 0 ≤ x) :
    ((pre.foldl sessionStep ⟨0, 0⟩).total_completed_seconds ≤
      ((pre ++ [u]).foldl sessionStep ⟨0, 0⟩).total_completed_seconds) ∧
    ((pre.foldl sessionStep ⟨0, 0⟩).total_completed_seconds <
      ((pre ++ [u]).foldl sessionStep ⟨0, 0⟩).total_completed_seconds ↔
      u < (pre.foldl sessionStep ⟨0, 0⟩).last_uptime) ∧
    (u < (pre.foldl sessionStep ⟨0, 0⟩).last_uptime →
      ((pre ++ [u]).foldl sessionStep ⟨0, 0⟩).total_completed_seconds =
        (pre.foldl sessionStep ⟨0, 0⟩).total_completed_seconds +
          (pre.foldl sessionStep ⟨0, 0⟩).last_uptime) := by
  have hpre : ∀ x ∈ pre, 0 ≤ x := by
    intro x hx
    exact hnn x (by rw [hsplit]; exact List.mem_append_left _ hx)
  have hlast : 0 ≤ (pre.foldl sessionStep ⟨0, 0⟩).last_uptime :=
    foldl_sessionStep_last_nonneg pre ⟨0, 0⟩ (by norm_num) hpre
  have hfold : (pre ++ [u]).foldl sessionStep ⟨0, 0⟩ =
      sessionStep (pre.foldl sessionStep ⟨0, 0⟩) u := by
    rw [List.foldl_append, List.foldl_cons, List.foldl_nil]
  rw [hfold, sessionStep_total]
  by_cases hlt : u < (pre.foldl sessionStep ⟨0, 0⟩).last_uptime
  · rw [if_pos hlt]
    have hu : 0 ≤ u := hnn u (by rw [hsplit]; exact List.mem_append_right _ (List.mem_cons_self u suf))
    have hpos : 0 < (pre.foldl sessionStep ⟨0, 0⟩).last_uptime := lt_of_le_of_lt hu hlt
    exact ⟨by linarith, ⟨fun _ => hlt, fun _ => by linarith⟩, fun _ => rfl⟩
  · rw [if_neg hlt]
    exact ⟨le_refl _, ⟨fun h => absurd h (lt_irrefl _), fun h => absurd h hlt⟩,
      fun h => absurd h hlt⟩

/-- Witness for `session_total_monotone`: with the nonnegative sequence
`100, 200, 50` the completed total strictly increases at the third update
(the uptime dropped from 200 to 50), reaching 200. -/
theorem session_total_monotone_witness :
    (([100, 200] : List ℚ).foldl sessionStep ⟨0, 0⟩).total_completed_seconds <
      (([100, 200, 50] : List ℚ).foldl sessionStep ⟨0, 0⟩).total_completed_seconds ∧
    (([100, 200, 50] : List ℚ).foldl sessionStep ⟨0, 0⟩).total_completed_seconds =
      200 := by
  have h := session_total_monotone [100, 200, 50] [100, 200] [] 50 rfl
    (by intro x hx; simp only [List.mem_cons, List.not_mem_nil, or_false] at hx
        rcases hx with h | h | h <;> rw [h] <;> norm_num)
  have hlt : (50 : ℚ) < (([100, 200] : List ℚ).foldl sessionStep ⟨0, 0⟩).last_uptime := by
    norm_num [sessionStep, _update_session_tracking]
  refine ⟨h.2.1.mpr hlt, ?_⟩
  have := h.2.2 hlt
  rw [show (([100, 200] : List ℚ) ++ [50]) = [100, 200, 50] from rfl] at this
  rw [this]
  norm_num [sessionStep, _update_session_tracking]

/-- Claim C4. Starting from session state `{total_completed_seconds: 0,
last_uptime: 0}`, the uptime sequence `100, 200, 50, 150` yields
`total_seconds = 350` and `current_seconds = 150` on the fourth call. -/
theorem session_sequence_100_200_50_150 :
    (_update_session_tracking
      (sessionStep (sessionStep (sessionStep ⟨0, 0⟩ 100) 200) 50)
      (some 150)).2 = some ⟨150, 350⟩ := by
  norm_num [sessionStep, _update_session_tracking]

/-- Claim C8. On a connectivity-probing tick the two targets are tried in
order: the first reachable target short-circuits to `online = true`
(regardless of the second target's state); two connection errors give
`online = false`; an exception escaping the probe leaves `online` unknown
(`none`) rather than `false`. -/
theorem connectivity_probe_cases (a b : ProbeOutcome) :
    fetchOnlineStatus true [a, b] =
      (match a, b with
       | .success, _ => some true
       | .connError, .success => some true
       | .connError, .connError => some false
       | .connError, .exn => none
       | .exn, _ => none) := by
  cases a <;> cases b <;> rfl

/-! Section: Record: eviction lemmas and invariants -/

lemma dropOld_sublist (c : Int) : ∀ l : List Entry, List.Sublist (dropOld c l) l := by
  intro l
  induction l with
  | nil => exact List.Sublist.refl _
  | cons e rest ih =>
      simp only [dropOld]
      split
      · exact ih.trans (List.sublist_cons_self e rest)
      · exact List.Sublist.refl _

lemma dropOld_bound (c : Int) :
    ∀ l : List Entry, l.Pairwise (fun a b => a.ts ≤ b.ts) →
      ∀ e ∈ dropOld c l, c ≤ e.ts := by
  intro l
  induction l with
  | nil => intro _ e he; simp [dropOld] at he
  | cons x rest ih =>
      intro hp e he
      rw [List.pairwise_cons] at hp
      simp only [dropOld] at he
      split at he
      · exact ih hp.2 e he
      · rename_i hx
        rcases List.mem_cons.mp he with rfl | hmem
        · omega
        · exact le_trans (by omega) (hp.1 e hmem)

lemma dropOld_concat_getLast? (c : Int) (x : Entry) (hx : ¬ x.ts < c) :
    ∀ l : List Entry, (dropOld c (l ++ [x])).getLast? = some x := by
  intro l
  induction l with
  | nil =>
      rw [List.nil_append]
      simp only [dropOld]
      rw [if_neg hx]
      rfl
  | cons e rest ih =>
      rw [List.cons_append]
      simp only [dropOld]
      split
      · exact ih
      · rw [← List.cons_append, List.getLast?_concat]

lemma dropOldCount_fst (c : Int) :
    ∀ l : List Entry, (dropOldCount c l).1 = dropOld c l := by
  intro l
  induction l with
  | nil => rfl
  | cons e rest ih =>
      simp only [dropOldCount, dropOld]
      split
      · exact ih
      · rfl

lemma dropOldCount_length (c : Int) :
    ∀ l : List Entry, (dropOldCount c l).1.length + (dropOldCount c l).2 = l.length := by
  intro l
  induction l with
  | nil => rfl
  | cons e rest ih =>
      simp only [dropOldCount, List.length_cons]
      split
      · simp only []
        omega
      · simp

/-- Unfolding of `_record_pi_history` on a real point, with the retention guard (a truthy
constant) discharged. -/
lemma record_some_eq (st : PiState) (p : Point) (now : Int) :
    _record_pi_history st (some p) now =
      (⟨dropOld (now - PI_HISTORY_WINDOW) (st.recent ++ [entryOf p now]),
        (dropOldCount (now - PI_FULL_HISTORY_RETENTION)
          (st.full ++ [entryOf p now])).1⟩,
       DiskOp.append (entryOf p now) ::
        (if (dropOldCount (now - PI_FULL_HISTORY_RETENTION)
              (st.full ++ [entryOf p now])).2 ≠ 0 then
          [DiskOp.rewrite ((dropOldCount (now - PI_FULL_HISTORY_RETENTION)
            (st.full ++ [entryOf p now])).1)]
        else [])) := by
  simp only [_record_pi_history, entryOf]
  rw [if_pos (show PI_FULL_HISTORY_RETENTION ≠ 0 by
    norm_num [PI_FULL_HISTORY_RETENTION])]
  rfl

lemma recordStep_good (st : PiState) (p : Point) (n m : Int)
    (hg : Good st m) (hmn : m ≤ n) : Good (recordStep st (p, n)) n := by
  obtain ⟨hsr, hbr, hsf, hbf⟩ := hg
  have hpr : (st.recent ++ [entryOf p n]).Pairwise (fun a b : Entry => a.ts ≤ b.ts) := by
    rw [List.pairwise_append]
    refine ⟨hsr, List.pairwise_singleton _ _, ?_⟩
    intro a ha b hb
    rw [List.mem_singleton] at hb
    subst hb
    exact le_trans (hbr a ha).1 hmn
  have hpf : (st.full ++ [entryOf p n]).Pairwise (fun a b : Entry => a.ts ≤ b.ts) := by
    rw [List.pairwise_append]
    refine ⟨hsf, List.pairwise_singleton _ _, ?_⟩
    intro a ha b hb
    rw [List.mem_singleton] at hb
    subst hb
    exact le_trans (hbf a ha).1 hmn
  unfold recordStep
  rw [record_some_eq]
  refine ⟨List.Pairwise.sublist (dropOld_sublist _ _) hpr, ?_, ?_, ?_⟩
  · intro e he
    refine ⟨?_, dropOld_bound _ _ hpr e he⟩
    have hmem := (dropOld_sublist _ _).subset he
    rcases List.mem_append.mp hmem with h | h
    · exact le_trans (hbr e h).1 hmn
    · rw [List.mem_singleton] at h
      subst h
      exact le_refl _
  · rw [dropOldCount_fst]
    exact List.Pairwise.sublist (dropOld_sublist _ _) hpf
  · rw [dropOldCount_fst]
    intro e he
    refine ⟨?_, dropOld_bound _ _ hpf e he⟩
    have hmem := (dropOld_sublist _ _).subset he
    rcases List.mem_append.mp hmem with h | h
    · exact le_trans (hbf e h).1 hmn
    · rw [List.mem_singleton] at h
      subst h
      exact le_refl _

lemma runRecords_good :
    ∀ (ops : List (Point × Int)) (st : PiState) (m k : Int),
      Good st m → List.Chain' (· ≤ ·) (m :: ops.map Prod.snd) →
      (m :: ops.map Prod.snd).getLast? = some k →
      Good (runRecords st ops) k := by
  intro ops
  induction ops with
  | nil =>
      intro st m k hg _ hlast
      simp only [List.map_nil] at hlast
      have : m = k := by
        simpa using hlast
      subst this
      exact hg
  | cons q rest ih =>
      intro st m k hg hch hlast
      rw [List.map_cons] at hch hlast
      rw [List.getLast?_cons_cons] at hlast
      have h1 := (List.chain'_cons.mp hch).1
      have h2 := (List.chain'_cons.mp hch).2
      have hstep : Good (recordStep st q) q.2 := recordStep_good st q.1 q.2 m hg h1
      exact ih (recordStep st q) q.2 k hstep h2 hlast

/-- Claim C5. For every sequence of record operations with non-decreasing
`now` instants, immediately after each record every entry of the recent
window is within the recent-window duration of that record's `now`, and
every entry of the full history is within the retention duration of it. -/
theorem record_retention_invariant (ops pre suf : List (Point × Int)) (p : Point)
    (n : Int) (hsplit : ops = pre ++ (p, n) :: suf)
    (hmono : List.Chain' (· ≤ ·) (ops.map Prod.snd)) :
    (∀ e ∈ (runRecords ⟨[], []⟩ (pre ++ [(p, n)])).recent,
      n - PI_HISTORY_WINDOW ≤ e.ts) ∧
    (∀ e ∈ (runRecords ⟨[], []⟩ (pre ++ [(p, n)])).full,
      n - PI_FULL_HISTORY_RETENTION ≤ e.ts) := by
  subst hsplit
  have hm2 : List.Chain' (· ≤ ·) ((pre ++ [(p, n)]).map Prod.snd) := by
    have he : (pre ++ (p, n) :: suf).map Prod.snd =
        ((pre ++ [(p, n)]).map Prod.snd) ++ suf.map Prod.snd := by
      simp
    rw [he] at hmono
    exact (List.chain'_append.mp hmono).1
  obtain ⟨x, rest, hL⟩ := List.exists_cons_of_ne_nil
    (show (pre ++ [(p, n)]).map Prod.snd ≠ [] by simp)
  have hch : List.Chain' (· ≤ ·) (x :: (pre ++ [(p, n)]).map Prod.snd) := by
    rw [hL]
    exact List.chain'_cons.mpr ⟨le_refl x, hL ▸ hm2⟩
  have hlast : (x :: (pre ++ [(p, n)]).map Prod.snd).getLast? = some n := by
    rw [hL, List.getLast?_cons_cons, ← hL, List.getLast?_map, List.getLast?_concat]
    rfl
  have hg := runRecords_good (pre ++ [(p, n)]) ⟨[], []⟩ x n
    ⟨List.Pairwise.nil, by simp, List.Pairwise.nil, by simp⟩ hch hlast
  exact ⟨fun e he => (hg.2.1 e he).2, fun e he => (hg.2.2.2 e he).2⟩

/-- Witness for `record_retention_invariant`: two records at instants 0 and
10; the entry recorded at 10 is in the recent window and within the window
duration of 10. -/
theorem record_retention_invariant_witness :
    (10 : Int) - PI_HISTORY_WINDOW ≤
      (⟨10, none, none, none, none, none⟩ : Entry).ts := by
  have h := record_retention_invariant
    [(⟨none, none, none, none, none⟩, 0), (⟨none, none, none, none, none⟩, 10)]
    [(⟨none, none, none, none, none⟩, 0)] [] ⟨none, none, none, none, none⟩ 10
    rfl
    (by
      simp only [List.map_cons, List.map_nil]
      exact List.chain'_cons.mpr ⟨by norm_num, List.chain'_singleton _⟩)
  exact h.1 ⟨10, none, none, none, none, none⟩ (by decide)

/-- Claim C6. A record rewrites the on-disk log (to the surviving in-memory
full history) iff its full-history eviction removed at least one entry;
when nothing was evicted the only disk operation is the append of the new
entry; and any rewrite performed writes exactly the surviving set. -/
theorem record_compaction_iff (st : PiState) (p : Point) (now : Int) :
    (DiskOp.rewrite ((_record_pi_history st (some p) now).1.full) ∈
        (_record_pi_history st (some p) now).2 ↔
      (_record_pi_history st (some p) now).1.full.length < st.full.length + 1) ∧
    ((_record_pi_history st (some p) now).1.full.length = st.full.length + 1 →
      (_record_pi_history st (some p) now).2 = [DiskOp.append (entryOf p now)]) ∧
    (∀ es, DiskOp.rewrite es ∈ (_record_pi_history st (some p) now).2 →
      es = (_record_pi_history st (some p) now).1.full) := by
  rw [record_some_eq]
  dsimp only
  have hlen := dropOldCount_length (now - PI_FULL_HISTORY_RETENTION)
    (st.full ++ [entryOf p now])
  rw [List.length_append] at hlen
  simp only [List.length_cons, List.length_nil] at hlen
  by_cases h0 : (dropOldCount (now - PI_FULL_HISTORY_RETENTION)
      (st.full ++ [entryOf p now])).2 = 0
  · rw [if_neg (by omega)]
    refine ⟨?_, fun _ => rfl, ?_⟩
    · constructor
      · intro hmem
        simp at hmem
      · intro hlt
        omega
    · intro es hes
      simp at hes
  · rw [if_pos h0]
    refine ⟨⟨fun _ => by omega, fun _ => by simp⟩, ?_, ?_⟩
    · intro heq
      exfalso
      omega
    · intro es hes
      simp only [List.mem_cons, List.mem_singleton, List.not_mem_nil, or_false] at hes
      rcases hes with h | h
      · exact absurd h (by simp)
      · exact DiskOp.rewrite.inj h

/-- Witness for `record_compaction_iff`: with one expired entry in the full
history, recording at instant 3000000 evicts it and triggers a rewrite of
the log to the surviving set. -/
theorem record_compaction_iff_witness :
    DiskOp.rewrite ((_record_pi_history
      ⟨[], [⟨0, none, none, none, none, none⟩]⟩
      (some ⟨none, none, none, none, none⟩) 3000000).1.full) ∈
    (_record_pi_history ⟨[], [⟨0, none, none, none, none, none⟩]⟩
      (some ⟨none, none, none, none, none⟩) 3000000).2 :=
  (record_compaction_iff ⟨[], [⟨0, none, none, none, none, none⟩]⟩
    ⟨none, none, none, none, none⟩ 3000000).1.mpr (by decide)

/-- Claim C7. Recording a point with only `cpu = 42.0` succeeds: the stored
entry carries `cpu = 42.0` and `none` for every other metric, it is the
last element of both containers after the record (appended, then subject to
eviction like any other entry), and it is appended to the on-disk log. -/
theorem record_partial_point (st : PiState) (now : Int) :
    ((_record_pi_history st (some ⟨some 42, none, none, none, none⟩) now).1.recent.getLast? =
      some ⟨now, some 42, none, none, none, none⟩) ∧
    ((_record_pi_history st (some ⟨some 42, none, none, none, none⟩) now).1.full.getLast? =
      some ⟨now, some 42, none, none, none, none⟩) ∧
    ((⟨now, some 42, none, none, none, none⟩ : Entry) ∈
      (_record_pi_history st (some ⟨some 42, none, none, none, none⟩) now).1.recent) ∧
    ((⟨now, some 42, none, none, none, none⟩ : Entry) ∈
      (_record_pi_history st (some ⟨some 42, none, none, none, none⟩) now).1.full) ∧
    (DiskOp.append ⟨now, some 42, none, none, none, none⟩ ∈
      (_record_pi_history st (some ⟨some 42, none, none, none, none⟩) now).2) := by
  rw [record_some_eq]
  have hW : ¬ (entryOf ⟨some 42, none, none, none, none⟩ now).ts <
      now - PI_HISTORY_WINDOW := by
    show ¬ now < now - PI_HISTORY_WINDOW
    simp only [PI_HISTORY_WINDOW]
    omega
  have hR : ¬ (entryOf ⟨some 42, none, none, none, none⟩ now).ts <
      now - PI_FULL_HISTORY_RETENTION := by
    show ¬ now < now - PI_FULL_HISTORY_RETENTION
    simp only [PI_FULL_HISTORY_RETENTION]
    omega
  have h1 := dropOld_concat_getLast? (now - PI_HISTORY_WINDOW) _ hW st.recent
  have h2 := dropOld_concat_getLast? (now - PI_FULL_HISTORY_RETENTION) _ hR st.full
  refine ⟨h1, ?_, List.mem_of_getLast?_eq_some h1, ?_, by simp [entryOf]⟩
  · rw [dropOldCount_fst]
    exact h2
  · rw [dropOldCount_fst]
    exact List.mem_of_getLast?_eq_some h2

/-! Section: Startup load: rebuild, pruning and compaction -/

lemma parseLoop_spec (c : Int) (lines : List RawLine) :
    parseLoop (some c) lines =
      (lines.filterMap (fun l =>
          match l with
          | .valid e => if c ≤ e.ts then some e else none
          | _ => none),
       (lines.filter (fun l =>
          match l with
          | .valid e => decide (e.ts < c)
          | _ => false)).length) := by
  induction lines with
  | nil => rfl
  | cons l rest ih =>
      cases l with
      | valid e =>
          simp only [parseLoop, ih, List.filterMap_cons, List.filter_cons]
          by_cases h : e.ts < c
          · rw [if_pos h]
            simp [h, not_le.mpr h]
          · rw [if_neg h]
            simp [h, not_lt.mp h]
      | blank => simp [parseLoop, ih, List.filterMap_cons, List.filter_cons]
      | malformed => simp [parseLoop, ih, List.filterMap_cons, List.filter_cons]
      | missingTs => simp [parseLoop, ih, List.filterMap_cons, List.filter_cons]
      | badTs => simp [parseLoop, ih, List.filterMap_cons, List.filter_cons]

/-- Claim C2, counterexample. A file with one malformed line and one fresh valid
line: the malformed line is discarded (two lines survive as one entry), yet
no write-back happens (`rewritten = false`) and the reported discard count
is zero — the claim's "whenever any discard occurred, the survivor set is
written back and the count reported" fails for malformed-line discards. -/
theorem load_malformed_discard_no_rewrite :
    ((_load_pi_full_history_from_disk
        [RawLine.malformed, RawLine.valid ⟨0, none, none, none, none, none⟩]
        0).rewritten = false) ∧
    ((_load_pi_full_history_from_disk
        [RawLine.malformed, RawLine.valid ⟨0, none, none, none, none, none⟩]
        0).full = [⟨0, none, none, none, none, none⟩]) ∧
    ((_load_pi_full_history_from_disk
        [RawLine.malformed, RawLine.valid ⟨0, none, none, none, none, none⟩]
        0).pruned = 0) ∧
    ([RawLine.malformed,
      RawLine.valid ⟨0, none, none, none, none, none⟩] : List RawLine).length = 2 := by
  decide

/-- Claim C2, amended. The startup load discards malformed lines, lines with
unparsable or missing timestamps, and valid lines older than the retention
cutoff, rebuilding the full history as the surviving parsed set (in file
order) and the recent window as the same set filtered by the recent-window
cutoff; the survivor set is written back to disk (once) and a discard count
reported if and only if at least one line was discarded by the *retention
cutoff* — discards of malformed or timestamp-less lines are silent,
uncounted, and do not trigger the write-back. -/
theorem load_rebuild_and_compaction (lines : List RawLine) (now : Int) :
    ((_load_pi_full_history_from_disk lines now).full = survivors lines now) ∧
    ((_load_pi_full_history_from_disk lines now).recent =
      (survivors lines now).filter
        (fun e => decide (now - PI_HISTORY_WINDOW ≤ e.ts))) ∧
    ((_load_pi_full_history_from_disk lines now).pruned =
      prunedCountSpec lines now) ∧
    ((_load_pi_full_history_from_disk lines now).rewritten = true ↔
      0 < prunedCountSpec lines now) := by
  unfold _load_pi_full_history_from_disk
  rw [if_pos (show PI_FULL_HISTORY_RETENTION ≠ 0 by
    norm_num [PI_FULL_HISTORY_RETENTION])]
  dsimp only
  rw [parseLoop_spec]
  simp only [survivors, prunedCountSpec, decide_eq_true_eq, ne_eq, true_and]
  omega

/-! Section: Query façade: columnar payload alignment -/

lemma payload_eq (entries : List PEntry) :
    _build_pi_history_payload entries =
      ⟨entries.filterMap (fun e => e.ts),
       (entries.filter (fun e => e.ts.isSome)).map (fun e => e.temperature),
       (entries.filter (fun e => e.ts.isSome)).map (fun e => e.cpu),
       (entries.filter (fun e => e.ts.isSome)).map (fun e => e.ram),
       (entries.filter (fun e => e.ts.isSome)).map (fun e => e.fan),
       (entries.filter (fun e => e.ts.isSome)).map (fun e => e.online)⟩ := by
  induction entries with
  | nil => rfl
  | cons e rest ih =>
      cases hts : e.ts with
      | none =>
          simp only [_build_pi_history_payload, hts, ih, List.filterMap_cons,
            List.filter_cons, Option.isSome_none, Bool.false_eq_true, if_false]
      | some t =>
          simp only [_build_pi_history_payload, hts, ih, List.filterMap_cons,
            List.filter_cons, Option.isSome_some, if_true]
          simp [List.map_cons]

lemma labels_length_eq_kept (entries : List PEntry) :
    (entries.filterMap (fun e => e.ts)).length =
      (entries.filter (fun e => e.ts.isSome)).length := by
  induction entries with
  | nil => rfl
  | cons e rest ih =>
      cases hts : e.ts <;>
        simp [List.filterMap_cons, List.filter_cons, hts, ih]

/-- Claim C9. For every list of entries, the columnar payload keeps its six
arrays index-aligned: labels are the timestamps of the kept rows (rows with
a usable `ts`, in order), each metric column is the corresponding metric of
exactly those kept rows (absent values appearing as explicit `none` at the
aligned index, never omitted), and all six arrays have equal length. -/
theorem payload_columns_aligned (entries : List PEntry) :
    ((_build_pi_history_payload entries).labels =
      entries.filterMap (fun e => e.ts)) ∧
    ((_build_pi_history_payload entries).temperature =
      (entries.filter (fun e => e.ts.isSome)).map (fun e => e.temperature)) ∧
    ((_build_pi_history_payload entries).cpu =
      (entries.filter (fun e => e.ts.isSome)).map (fun e => e.cpu)) ∧
    ((_build_pi_history_payload entries).ram =
      (entries.filter (fun e => e.ts.isSome)).map (fun e => e.ram)) ∧
    ((_build_pi_history_payload entries).fan =
      (entries.filter (fun e => e.ts.isSome)).map (fun e => e.fan)) ∧
    ((_build_pi_history_payload entries).online =
      (entries.filter (fun e => e.ts.isSome)).map (fun e => e.online)) ∧
    ((_build_pi_history_payload entries).temperature.length =
      (_build_pi_history_payload entries).labels.length) ∧
    ((_build_pi_history_payload entries).cpu.length =
      (_build_pi_history_payload entries).labels.length) ∧
    ((_build_pi_history_payload entries).ram.length =
      (_build_pi_history_payload entries).labels.length) ∧
    ((_build_pi_history_payload entries).fan.length =
      (_build_pi_history_payload entries).labels.length) ∧
    ((_build_pi_history_payload entries).online.length =
      (_build_pi_history_payload entries).labels.length) := by
  rw [payload_eq]
  refine ⟨rfl, rfl, rfl, rfl, rfl, rfl, ?_, ?_, ?_, ?_, ?_⟩ <;>
    simp [labels_length_eq_kept]

/-- Claim C10. Recording a falsy sample point is a complete no-op: the state
(recent window and full history) is returned unchanged and no disk
operation (neither append nor rewrite) is performed. -/
theorem record_falsy_noop (st : PiState) (now : Int) :
    _record_pi_history st none now = (st, []) := rfl

end StatusPage
